import Mathlib

/-!
Verification of the momentum-driven portfolio pipeline in `src/hedgefund.py`.

Price series are embedded as functions `ℕ → ℚ` (trading-day index to adjusted
close), with an explicit length `n` carried by the theorems.  Pandas `NaN`
values are embedded as `none : Option ℚ`: `pct_change` is undefined at the
first row, a row-wise pandas `sum` skips `none` entries (an all-`none` row sums
to `0`), and `cumprod` keeps `none` positions undefined while skipping them in
the running product.  All float arithmetic is modelled exactly over `ℚ`
(and `ℝ` where `sqrt`/`rpow` appear in `generate_report`).
-/

/-- The benchmark ticker constant `SPY = 'SPY'` of `hedgefund.py`. -/
def SPY : String := "SPY"

/-- `prices[k].pct_change()` at row `t`: undefined (`NaN`) at the first row,
otherwise `p t / p (t-1) - 1`. -/
def pctChange (p : ℕ → ℚ) (t : ℕ) : Option ℚ :=
  if t = 0 then none else some (p t / p (t - 1) - 1)

/-- The column assigned by `portfolio[ticker] = prices[ticker].pct_change() * weight`
(line 77): the weighted daily return series of one `(ticker, weight)` pair. -/
def weightedSeries (prices : String → ℕ → ℚ) (kv : String × ℚ) : ℕ → Option ℚ :=
  fun t => (pctChange (prices kv.1) t).map (fun r => r * kv.2)

/-- Pandas DataFrame column assignment `df[name] = s`: replace the column if the
name exists, else append it on the right. -/
def setCol (cols : List (String × (ℕ → Option ℚ))) (name : String) (s : ℕ → Option ℚ) :
    List (String × (ℕ → Option ℚ)) :=
  if cols.any (fun c => c.1 == name) then
    cols.map (fun c => if c.1 == name then (name, s) else c)
  else
    cols ++ [(name, s)]

/-- The asset-return columns of the `portfolio` DataFrame after lines 72-77:
start from `portfolio['SPY'] = prices[SPY].pct_change()` and assign
`portfolio[ticker] = prices[ticker].pct_change() * weight` for each entry of
`weights` in order (overwriting the `'SPY'` column when `'SPY'` is a key). -/
def buildCols (prices : String → ℕ → ℚ) (weights : List (String × ℚ)) :
    List (String × (ℕ → Option ℚ)) :=
  weights.foldl (fun cols kv => setCol cols kv.1 (weightedSeries prices kv))
    [(SPY, pctChange (prices SPY))]

/-- Column lookup by name (a missing name yields an all-`NaN` column; never hit
on the names actually used). -/
def getCol (cols : List (String × (ℕ → Option ℚ))) (name : String) : ℕ → Option ℚ :=
  match cols.find? (fun c => c.1 == name) with
  | some c => c.2
  | none => fun _ => none

/-- Pandas row-wise `sum(axis=1)` with default `skipna`: `NaN` entries count as
`0`, and an all-`NaN` row sums to `0.0`. -/
def rowSumSkipNa (cols : List (String × (ℕ → Option ℚ))) (t : ℕ) : ℚ :=
  (cols.map (fun c => (c.2 t).getD 0)).sum

/-- `portfolio['Strategy'] = portfolio.drop(columns=['SPY']).sum(axis=1)` (line 79):
row sums over every built column except the one named `'SPY'`. -/
def stratInit (prices : String → ℕ → ℚ) (weights : List (String × ℚ)) (t : ℕ) : ℚ :=
  rowSumSkipNa ((buildCols prices weights).filter (fun c => !(c.1 == SPY))) t

/-- `portfolio.loc[date:, [t for t in weights]].sum(axis=1)` (line 85): row sums
over the columns named by the keys of `weights` (including the overwritten
`'SPY'` column when present). -/
def stratAll (prices : String → ℕ → ℚ) (weights : List (String × ℚ)) (t : ℕ) : ℚ :=
  (weights.map (fun kv => ((getCol (buildCols prices weights) kv.1) t).getD 0)).sum

/-- The `Strategy` column after the rebalancing loop of lines 82-85: each
rebalance index `d` present in the observed index overwrites rows `t ≥ d` with
the full weighted row sum `stratAll`. -/
def stratFinal (prices : String → ℕ → ℚ) (weights : List (String × ℚ))
    (reb : List ℕ) : ℕ → ℚ :=
  reb.foldl (fun s d => fun t => if d ≤ t then stratAll prices weights t else s t)
    (stratInit prices weights)

/-- The final `'SPY'` (benchmark) column read by line 88. -/
def benchCol (prices : String → ℕ → ℚ) (weights : List (String × ℚ)) : ℕ → Option ℚ :=
  getCol (buildCols prices weights) SPY

/-- Pandas `(1 + s).cumprod()` on a column with possible `NaN`s: positions that
are `NaN` stay `NaN`; elsewhere the running product skips the `NaN` factors. -/
def cumOfOpt (f : ℕ → Option ℚ) (t : ℕ) : Option ℚ :=
  (f t).map (fun _ =>
    Finset.prod (Finset.range (t + 1)) (fun i =>
      match f i with
      | some r => 1 + r
      | none => 1))

/-- The benchmark cumulative series `(1 + portfolio['SPY']).cumprod()`. -/
def cumBench (prices : String → ℕ → ℚ) (weights : List (String × ℚ)) (t : ℕ) : Option ℚ :=
  cumOfOpt (benchCol prices weights) t

/-- The strategy cumulative series `(1 + portfolio['Strategy']).cumprod()`
(the `Strategy` column never holds `NaN`: row sums are plain floats). -/
def cumStrategy (prices : String → ℕ → ℚ) (weights : List (String × ℚ))
    (reb : List ℕ) (t : ℕ) : ℚ :=
  Finset.prod (Finset.range (t + 1)) (fun i => 1 + stratFinal prices weights reb i)

/-! ## Momentum scoring and asset selection -/

/-- `prices.pct_change(k)` evaluated at the last of `n` rows (row `n-1`), as
used through `calculate_momentum(prices.iloc[-1:])`: defined iff the series has
more than `k` observations. -/
def windowReturn (p : ℕ → ℚ) (n k : ℕ) : Option ℚ :=
  if k < n then some (p (n - 1) / p (n - 1 - k) - 1) else none

/-- `momentum['total'] = momentum['6m'] * 0.4 + momentum['12m'] * 0.6` (line 50)
with the source's windows 126 and 252; `NaN` in either input propagates. -/
def totalScore (p : ℕ → ℚ) (n : ℕ) : Option ℚ :=
  match windowReturn p n 126, windowReturn p n 252 with
  | some r6, some r12 => some (r6 * 0.4 + r12 * 0.6)
  | _, _ => none

/-- The records with a defined (non-`NaN`) composite score; `nlargest` drops
rows whose ordering column is `NaN`. -/
def validRecs (recs : List (String × Option ℚ)) : List (String × ℚ) :=
  recs.filterMap (fun r => r.2.map (fun q => (r.1, q)))

/-- Ordering used by `nlargest(n, 'total')`: descending by score, and a stable
sort keeps earlier rows first among ties (`keep='first'`). -/
def scoreGE (a b : String × ℚ) : Prop := b.2 ≤ a.2

instance : DecidableRel scoreGE := fun a b => inferInstanceAs (Decidable (b.2 ≤ a.2))

instance : IsTotal (String × ℚ) scoreGE := ⟨fun a b => le_total b.2 a.2⟩

instance : IsTrans (String × ℚ) scoreGE := ⟨fun _ _ _ h h2 => le_trans h2 h⟩

/-- `int(len(momentum.columns) * 0.3)` generalised to a selection fraction `f`:
Python `int()` truncates the product toward zero (floor for non-negative). -/
def selectCount (f : ℚ) (n : ℕ) : ℕ := (Int.floor ((n : ℚ) * f)).toNat

/-- The valid records in the descending stable order produced by `nlargest`. -/
def rankedRecs (recs : List (String × Option ℚ)) : List (String × ℚ) :=
  List.insertionSort scoreGE (validRecs recs)

/-- The selected records with their scores:
`momentum.nlargest(int(len(momentum.columns)*0.3), 'total')` with fraction `f`. -/
def selectTopScored (f : ℚ) (recs : List (String × Option ℚ)) : List (String × ℚ) :=
  (rankedRecs recs).take (selectCount f recs.length)

/-- The selected tickers (`.columns` of the `nlargest` result, line 56). -/
def selectTop (f : ℚ) (recs : List (String × Option ℚ)) : List String :=
  (selectTopScored f recs).map Prod.fst

/-! ## Performance report (`generate_report`, lines 104-119) -/

/-- `returns = cum_returns.pct_change().dropna()` (line 106): the daily-return
rows with the `NaN` first row dropped. -/
def dailyReturns (v : ℕ → ℚ) (n : ℕ) : List ℚ :=
  ((List.range n).map (fun t => pctChange v t)).filterMap id

/-- Spec formula (§4.5): the `n - 1` paired daily returns `v (i+1) / v i - 1`. -/
def specReturns (v : ℕ → ℚ) (n : ℕ) : List ℚ :=
  (List.range (n - 1)).map (fun i => v (i + 1) / v i - 1)

/-- Pandas `Series.mean()`. -/
def meanQ (l : List ℚ) : ℚ := l.sum / l.length

/-- The square of pandas `Series.std()`: the `ddof = 1` sample variance. -/
def sampleVar (l : List ℚ) : ℚ :=
  (l.map (fun x => (x - meanQ l) ^ 2)).sum / ((l.length : ℚ) - 1)

/-- `report['Annual Return'] = returns.mean() * 252` (line 109). -/
def annualReturn (v : ℕ → ℚ) (n : ℕ) : ℚ := meanQ (dailyReturns v n) * 252

/-- `report['Annual Volatility'] = returns.std() * np.sqrt(252)` (line 110). -/
noncomputable def annualVol (v : ℕ → ℚ) (n : ℕ) : ℝ :=
  Real.sqrt ((sampleVar (dailyReturns v n) : ℝ)) * Real.sqrt 252

open Classical in
/-- `report['Sharpe Ratio'] = report['Annual Return'] / report['Annual Volatility']`
(line 111): float division by a zero volatility yields an IEEE non-finite value
(`inf`, `-inf` or `NaN`) without raising; `none` embeds that non-finite result. -/
noncomputable def sharpeRatio (v : ℕ → ℚ) (n : ℕ) : Option ℝ :=
  if annualVol v n = 0 then none
  else some ((annualReturn v n : ℝ) / annualVol v n)

/-- Pandas `cummax()`: the running-maximum scan. -/
def runMax (v : ℕ → ℚ) : ℕ → ℚ
  | 0 => v 0
  | t + 1 => max (runMax v t) (v (t + 1))

/-- Minimum of a list of rationals (pandas `.min()` on a non-empty column). -/
def listMinQ : List ℚ → ℚ
  | [] => 0
  | x :: xs => xs.foldl min x

/-- Maximum of a list of rationals. -/
def listMaxQ : List ℚ → ℚ
  | [] => 0
  | x :: xs => xs.foldl max x

/-- Spec formula (§4.5): the running peak — the maximum cumulative value over
all dates `i ≤ t`. -/
def specPeak (v : ℕ → ℚ) (t : ℕ) : ℚ := listMaxQ ((List.range (t + 1)).map v)

/-- `report['Max Drawdown'] = (cum_returns / cum_returns.cummax() - 1).min()`
(line 112). -/
def maxDrawdown (v : ℕ → ℚ) (n : ℕ) : ℚ :=
  listMinQ ((List.range n).map (fun t => v t / runMax v t - 1))

/-- `report['CAGR'] = (cum_returns.iloc[-1] ** (1/(len(cum_returns)/252))) - 1`
(line 113). -/
noncomputable def cagr (v : ℕ → ℚ) (n : ℕ) : ℝ :=
  Real.rpow ((v (n - 1) : ℝ)) (1 / ((n : ℝ) / 252)) - 1

/-- Spec formula (§4.5): `CAGR = (final cumulative value)^(252 / periods) - 1`. -/
noncomputable def specCagr (v : ℕ → ℚ) (n : ℕ) : ℝ :=
  Real.rpow ((v (n - 1) : ℝ)) (252 / (n : ℝ)) - 1

/-! ## Optimizer output cleaning

`optimize_portfolio` (lines 53-67) returns `ef.clean_weights()`; the solver and
the cleaning live in the external `pypfopt` package, so the solver output is
abstracted by the feasibility hypotheses of the theorems (weights non-negative,
summing to one). -/

/-- NumPy rounding to an integer: round half to even. -/
def roundHalfEven (q : ℚ) : ℤ :=
  if q - Int.floor q < 1 / 2 then Int.floor q
  else if 1 / 2 < q - Int.floor q then Int.floor q + 1
  else if Even (Int.floor q) then Int.floor q else Int.floor q + 1

/-- `np.round(x, 5)`. -/
def npRound5 (q : ℚ) : ℚ := (roundHalfEven (q * 100000) : ℚ) / 100000

/-- Modelled from the spec (§4.3, output rounding) and the called library:
`EfficientFrontier.clean_weights()` (line 65, implemented in the external
`pypfopt` package) zeroes weights of magnitude below `1e-4` and rounds the rest
to 5 decimal places, without renormalising. -/
def cleanWeight (q : ℚ) : ℚ := if |q| < 1 / 10000 then 0 else npRound5 q

/-- Modelled from the spec: the WeightVector returned by `optimize_portfolio`,
an exact max-Sharpe solution passed elementwise through `clean_weights`. -/
def cleanWeights (ws : List ℚ) : List ℚ := ws.map cleanWeight

/-! ## Discrete allocator

`main` (lines 140-142) delegates to the external
`pypfopt.DiscreteAllocation(...).lp_portfolio()`; the allocator itself is not
part of this repository's sources, so it is modelled from the spec (§4.6).
An asset is a `(ticker, weight, price)` triple. -/

/-- Price of the `i`-th asset. -/
def assetPrice (assets : List (String × ℚ × ℚ)) (i : ℕ) : ℚ :=
  (assets.getD i ("", 0, 0)).2.2

/-- Target weight of the `i`-th asset. -/
def assetWeight (assets : List (String × ℚ × ℚ)) (i : ℕ) : ℚ :=
  (assets.getD i ("", 0, 0)).2.1

/-- Modelled from the spec: §4.6 first pass — per asset,
`unit count = floor(target dollars / price)` with `target dollars = weight × budget`. -/
def firstPassUnits (budget : ℚ) (assets : List (String × ℚ × ℚ)) : List ℕ :=
  assets.map (fun a => (Int.floor (a.2.1 * budget / a.2.2)).toNat)

/-- Cash spent by an allocation. -/
def allocSpent (assets : List (String × ℚ × ℚ)) (units : List ℕ) : ℚ :=
  ((List.range assets.length).map (fun i => (units.getD i 0 : ℚ) * assetPrice assets i)).sum

/-- Modelled from the spec: §4.6 fractional-unit shortfall of asset `i`,
`target dollars − allocated dollars`. -/
def shortfallAt (budget : ℚ) (assets : List (String × ℚ × ℚ)) (units : List ℕ) (i : ℕ) : ℚ :=
  assetWeight assets i * budget - (units.getD i 0 : ℚ) * assetPrice assets i

/-- First index in `l` attaining the maximum of `f` (earliest wins ties). -/
def argmaxIdx (f : ℕ → ℚ) : List ℕ → Option ℕ
  | [] => none
  | x :: xs =>
    match argmaxIdx f xs with
    | none => some x
    | some y => if f x < f y then some y else some x

/-- Modelled from the spec: the affordable assets — price at most the leftover cash. -/
def affordables (assets : List (String × ℚ × ℚ)) (leftover : ℚ) : List ℕ :=
  (List.range assets.length).filter (fun i => decide (assetPrice assets i ≤ leftover))

/-- Modelled from the spec: one greedy round — the affordable asset with the
largest shortfall receives one additional unit; `none` when no asset is affordable. -/
def greedyStep (budget : ℚ) (assets : List (String × ℚ × ℚ)) (st : List ℕ × ℚ) :
    Option (List ℕ × ℚ) :=
  match argmaxIdx (shortfallAt budget assets st.1) (affordables assets st.2) with
  | none => none
  | some i => some (st.1.set i (st.1.getD i 0 + 1), st.2 - assetPrice assets i)

/-- Modelled from the spec: repeat greedy rounds until no affordable improvement
exists; `fuel` bounds the number of rounds (any `fuel` with
`fuel × min price > budget` suffices). -/
def greedyAlloc (budget : ℚ) (assets : List (String × ℚ × ℚ)) :
    ℕ → (List ℕ × ℚ) → (List ℕ × ℚ)
  | 0, st => st
  | fuel + 1, st =>
    match greedyStep budget assets st with
    | none => st
    | some st2 => greedyAlloc budget assets fuel st2

/-- Modelled from the spec: the full Discrete Allocator — floor first pass,
then greedy top-up of the remaining cash. -/
def allocate (budget : ℚ) (assets : List (String × ℚ × ℚ)) (fuel : ℕ) : List ℕ × ℚ :=
  greedyAlloc budget assets fuel
    (firstPassUnits budget assets, budget - allocSpent assets (firstPassUnits budget assets))

/-- The cheapest price among the assets. -/
def minPrice (assets : List (String × ℚ × ℚ)) : ℚ :=
  listMinQ (assets.map (fun a => a.2.2))

/-! ## Spec drift model (for the refinement comparison of the backtest)

These definitions follow the spec's words (§4.4), to be compared against the
code's `stratFinal`. -/

/-- Modelled from the spec: §4.4 effective weights — they start at the target
weights, drift with asset returns between rebalancing dates, and are reset to
the target on each rebalance date. `effWeights … t` is the vector in effect
for day `t + 1`. -/
def effWeights (prices : String → ℕ → ℚ) (target : List (String × ℚ))
    (reb : List ℕ) : ℕ → List (String × ℚ)
  | 0 => target
  | t + 1 =>
    if (t + 1) ∈ reb then target
    else
      let grown := (effWeights prices target reb t).map
        (fun kv => (kv.1, kv.2 * (1 + (pctChange (prices kv.1) (t + 1)).getD 0)))
      grown.map (fun kv => (kv.1, kv.2 / (grown.map Prod.snd).sum))

/-- Modelled from the spec: §4.4 strategy daily return — the sum over assets of
(current effective weight × asset daily return). -/
def driftReturn (prices : String → ℕ → ℚ) (target : List (String × ℚ))
    (reb : List ℕ) (t : ℕ) : ℚ :=
  ((effWeights prices target reb (t - 1)).map
    (fun kv => kv.2 * (pctChange (prices kv.1) t).getD 0)).sum

/-! ## Concrete instances used by witnesses and counterexamples -/

/-- A three-day price table: asset `A` doubles each day, `B` and `SPY` are flat. -/
def cPrices : String → ℕ → ℚ := fun k t =>
  if k = "A" then (if t = 0 then 1 else if t = 1 then 2 else 4) else 1

/-- A two-day price table where `SPY` rises 100% on day 1 and `A` is flat. -/
def cPrices2 : String → ℕ → ℚ := fun k t =>
  if k = "SPY" then (if t = 0 then 1 else 2) else 1

/-- An equal-weight two-asset `WeightVector` on `A` and `B`. -/
def cWeightsAB : List (String × ℚ) := [("A", 1/2), ("B", 1/2)]

/-- A `WeightVector` that gives the benchmark ticker `SPY` weight `1.0`. -/
def cWeightsSPY1 : List (String × ℚ) := [("SPY", 1)]

/-- A `WeightVector` that gives the benchmark ticker `SPY` weight `0.5`. -/
def cWeightsSPYhalf : List (String × ℚ) := [("SPY", 1/2)]

/-- A 253-observation series realising a 10% six-month and 20% twelve-month
return (asset `A` of the spec's selection scenario). -/
def pA : ℕ → ℚ := fun i => if i = 252 then 6/5 else if i = 126 then 12/11 else 1

/-- A 253-observation series realising a 2% six-month and −5% twelve-month
return (asset `B` of the spec's selection scenario). -/
def pB : ℕ → ℚ := fun i => if i = 252 then 19/20 else if i = 126 then 95/102 else 1

/-- The two-asset momentum records of the spec's selection scenario. -/
def recsAB : List (String × Option ℚ) := [("A", totalScore pA 253), ("B", totalScore pB 253)]

/-- Five momentum records with distinct defined scores. -/
def recs5 : List (String × Option ℚ) :=
  [("A", some 5), ("B", some 4), ("C", some 3), ("D", some 2), ("E", some 1)]

/-- Two tied records stored with `B` first. -/
def recsTieBA : List (String × Option ℚ) := [("B", some 1), ("A", some 1)]

/-- The same two tied records stored with `A` first. -/
def recsTieAB : List (String × Option ℚ) := [("A", some 1), ("B", some 1)]

/-- Records where asset `S` has a data gap (undefined score). -/
def recsGap : List (String × Option ℚ) := [("S", none), ("A", some 1), ("B", some 0)]

/-- A single $300 asset with full weight (the allocation scenario). -/
def cAssetX : List (String × ℚ × ℚ) := [("X", 1, 300)]

/-- The column created for one weights entry. -/
def mkCol (prices : String → ℕ → ℚ) (kv : String × ℚ) : String × (ℕ → Option ℚ) :=
  (kv.1, weightedSeries prices kv)

/-- The final benchmark series as determined by the weights mapping: the raw
`SPY` percent change unless `'SPY'` is a key of `weights`, in which case the
loop of line 76-77 has overwritten it with the weighted `SPY` series. -/
def benchSeries (prices : String → ℕ → ℚ) (weights : List (String × ℚ)) : ℕ → Option ℚ :=
  match weights.find? (fun kv => kv.1 == SPY) with
  | some kv => weightedSeries prices kv
  | none => pctChange (prices SPY)

/-! ## Helper lemmas: selection -/

theorem validRecs_mem {recs : List (String × Option ℚ)} {x : String × ℚ}
    (hx : x ∈ validRecs recs) : (x.1, some x.2) ∈ recs := by
  rcases List.mem_filterMap.1 hx with ⟨r, hr, he⟩
  cases r with
  | mk a b =>
    cases b with
    | none => simp at he
    | some q =>
      simp only [Option.map_some'] at he
      cases he
      simpa using hr

theorem selectTopScored_subset {f : ℚ} {recs : List (String × Option ℚ)} {x : String × ℚ}
    (hx : x ∈ selectTopScored f recs) : x ∈ validRecs recs := by
  have h1 : x ∈ rankedRecs recs := (List.take_subset _ _) hx
  exact (List.perm_insertionSort scoreGE (validRecs recs)).subset h1

theorem selectTopScored_sorted (f : ℚ) (recs : List (String × Option ℚ)) :
    (selectTopScored f recs).Pairwise scoreGE := by
  have h1 : (rankedRecs recs).Pairwise scoreGE :=
    List.sorted_insertionSort scoreGE (validRecs recs)
  exact h1.sublist (List.take_sublist _ _)

theorem selectTop_length (f : ℚ) (recs : List (String × Option ℚ)) :
    (selectTop f recs).length = min (selectCount f recs.length) (validRecs recs).length := by
  simp [selectTop, selectTopScored, rankedRecs, List.length_insertionSort]

/-! ## Helper lemmas: report -/

theorem filterMap_some_eq_map {α β : Type} (f : α → Option β) (g : α → β)
    (h : ∀ a, f a = some (g a)) : ∀ l : List α, l.filterMap f = l.map g := by
  intro l
  induction l with
  | nil => simp
  | cons x xs ih => simp [List.filterMap_cons, h, ih]

theorem dailyReturns_eq_specReturns (v : ℕ → ℚ) (n : ℕ) :
    dailyReturns v n = specReturns v n := by
  cases n with
  | zero => simp [dailyReturns, specReturns]
  | succ m =>
    have h : dailyReturns v (m + 1) = (List.range (m + 1)).filterMap (pctChange v) := by
      simp [dailyReturns, List.filterMap_map]
    rw [h, List.range_succ_eq_map, List.filterMap_cons]
    have h0 : pctChange v 0 = none := by simp [pctChange]
    rw [h0, List.filterMap_map]
    rw [filterMap_some_eq_map (pctChange v ∘ Nat.succ) (fun i => v (i + 1) / v i - 1)
      (fun i => by simp [Function.comp, pctChange])]
    simp [specReturns]

theorem foldl_max_le {a b : ℚ} {l : List ℚ} :
    List.foldl max a l ≤ b ↔ a ≤ b ∧ ∀ x ∈ l, x ≤ b := by
  induction l generalizing a with
  | nil => simp
  | cons x xs ih =>
    simp only [List.foldl_cons, ih, max_le_iff, List.mem_cons]
    constructor
    · rintro ⟨⟨h1, h2⟩, h3⟩
      exact ⟨h1, fun y hy => by rcases hy with rfl | hy; exact h2; exact h3 y hy⟩
    · rintro ⟨h1, h2⟩
      exact ⟨⟨h1, h2 x (Or.inl rfl)⟩, fun y hy => h2 y (Or.inr hy)⟩

theorem runMax_eq_specPeak (v : ℕ → ℚ) : ∀ t, runMax v t = specPeak v t := by
  intro t
  induction t with
  | zero =>
    rw [specPeak, show List.range 1 = [0] from rfl]
    simp [runMax, listMaxQ]
  | succ m ih =>
    rw [runMax, ih, specPeak, specPeak, List.range_succ (n := m + 1), List.map_append]
    cases hr : (List.range (m + 1)).map v with
    | nil =>
      exfalso
      have : (List.range (m + 1)).map v ≠ [] := by simp
      exact this hr
    | cons y ys =>
      simp [listMaxQ, List.foldl_append, hr]

theorem foldl_min_le_init (a : ℚ) (l : List ℚ) : List.foldl min a l ≤ a := by
  induction l generalizing a with
  | nil => simp
  | cons x xs ih =>
    simp only [List.foldl_cons]
    exact le_trans (ih (min a x)) (min_le_left a x)

theorem foldl_min_le_mem {x : ℚ} : ∀ (l : List ℚ) (a : ℚ), x ∈ l → List.foldl min a l ≤ x := by
  intro l
  induction l with
  | nil => intro a hx; simp at hx
  | cons y ys ih =>
    intro a hx
    simp only [List.foldl_cons]
    rcases List.mem_cons.1 hx with rfl | hy
    · exact le_trans (foldl_min_le_init _ _) (min_le_right a x)
    · exact ih (min a y) hy

theorem foldl_min_cases (a : ℚ) (l : List ℚ) :
    List.foldl min a l = a ∨ List.foldl min a l ∈ l := by
  induction l generalizing a with
  | nil => simp
  | cons x xs ih =>
    simp only [List.foldl_cons]
    rcases ih (min a x) with h | h
    · rcases min_cases a x with ⟨he, _⟩ | ⟨he, _⟩
      · left; rw [h, he]
      · right; rw [h, he]; exact List.mem_cons_self _ _
    · right; exact List.mem_cons_of_mem _ h

theorem listMinQ_le {x : ℚ} {l : List ℚ} (hx : x ∈ l) : listMinQ l ≤ x := by
  cases l with
  | nil => simp at hx
  | cons y ys =>
    rcases List.mem_cons.1 hx with rfl | hy
    · exact foldl_min_le_init _ _
    · exact foldl_min_le_mem ys y hy

theorem listMinQ_mem {l : List ℚ} (h : l ≠ []) : listMinQ l ∈ l := by
  cases l with
  | nil => exact absurd rfl h
  | cons y ys =>
    rcases foldl_min_cases y ys with he | he
    · rw [listMinQ, he]; exact List.mem_cons_self _ _
    · exact List.mem_cons_of_mem _ (by rw [listMinQ]; exact he)

/-! ## Helper lemmas: the `portfolio` DataFrame structure -/

theorem key_unique {ws : List (String × ℚ)} (h : (ws.map Prod.fst).Nodup)
    {a b : String × ℚ} (ha : a ∈ ws) (hb : b ∈ ws) (hab : a.1 = b.1) : a = b := by
  induction ws with
  | nil => simp at ha
  | cons c cs ih =>
    rcases List.mem_cons.1 ha with rfl | ha2 <;> rcases List.mem_cons.1 hb with h2 | hb2
    · rw [h2]
    · exfalso
      have : b.1 ∈ cs.map Prod.fst := List.mem_map_of_mem Prod.fst hb2
      rw [← hab] at this
      exact (List.nodup_cons.1 h).1 this
    · exfalso
      subst h2
      have : a.1 ∈ cs.map Prod.fst := List.mem_map_of_mem Prod.fst ha2
      rw [hab] at this
      exact (List.nodup_cons.1 h).1 this
    · exact ih (List.nodup_cons.1 h).2 ha2 hb2

theorem mem_setCol {cols : List (String × (ℕ → Option ℚ))} {name : String}
    {s : ℕ → Option ℚ} {c : String × (ℕ → Option ℚ)} (hc : c ∈ setCol cols name s) :
    c ∈ cols ∨ c = (name, s) := by
  rw [setCol] at hc
  by_cases h : cols.any (fun c => c.1 == name)
  · rw [if_pos h] at hc
    rcases List.mem_map.1 hc with ⟨c0, hc0, he⟩
    by_cases h2 : c0.1 == name
    · rw [if_pos h2] at he
      exact Or.inr he.symm
    · rw [if_neg h2] at he
      exact Or.inl (he ▸ hc0)
  · rw [if_neg h] at hc
    rcases List.mem_append.1 hc with h2 | h2
    · exact Or.inl h2
    · exact Or.inr (by simpa using h2)

theorem mem_buildCols {prices : String → ℕ → ℚ} {weights : List (String × ℚ)}
    {c : String × (ℕ → Option ℚ)} (hc : c ∈ buildCols prices weights) :
    c = (SPY, pctChange (prices SPY)) ∨ ∃ kv ∈ weights, c = mkCol prices kv := by
  rw [buildCols] at hc
  suffices h : ∀ (ws : List (String × ℚ)) (cols : List (String × (ℕ → Option ℚ))),
      c ∈ ws.foldl (fun cols kv => setCol cols kv.1 (weightedSeries prices kv)) cols →
      c ∈ cols ∨ ∃ kv ∈ ws, c = mkCol prices kv by
    rcases h weights [(SPY, pctChange (prices SPY))] hc with h2 | h2
    · exact Or.inl (by simpa using h2)
    · exact Or.inr h2
  intro ws
  induction ws with
  | nil => intro cols h2; exact Or.inl h2
  | cons kv ws ih =>
    intro cols h2
    rcases ih _ h2 with h3 | h3
    · rcases mem_setCol h3 with h4 | h4
      · exact Or.inl h4
      · exact Or.inr ⟨kv, List.mem_cons_self _ _, h4⟩
    · rcases h3 with ⟨kv2, hkv2, he⟩
      exact Or.inr ⟨kv2, List.mem_cons_of_mem _ hkv2, he⟩

theorem buildCols_col_zero {prices : String → ℕ → ℚ} {weights : List (String × ℚ)}
    {c : String × (ℕ → Option ℚ)} (hc : c ∈ buildCols prices weights) : c.2 0 = none := by
  rcases mem_buildCols hc with rfl | ⟨kv, _, rfl⟩
  · simp [pctChange]
  · simp [mkCol, weightedSeries, pctChange]

theorem setCol_head (h0 : ℕ → Option ℚ) (rest : List (String × (ℕ → Option ℚ)))
    (name : String) (s : ℕ → Option ℚ) :
    ∃ h2 rest2, setCol ((SPY, h0) :: rest) name s = (SPY, h2) :: rest2 := by
  rw [setCol]
  by_cases hany : (((SPY, h0) :: rest).any (fun c => c.1 == name)) = true
  · rw [if_pos hany, List.map_cons]
    by_cases hn : (SPY == name) = true
    · have hname : name = SPY := (beq_iff_eq.1 hn).symm
      subst hname
      refine ⟨s, rest.map (fun c => if (c.1 == SPY) = true then (SPY, s) else c), ?_⟩
      simp
    · refine ⟨h0, rest.map (fun c => if (c.1 == name) = true then (name, s) else c), ?_⟩
      simp [hn]
  · rw [if_neg hany, List.cons_append]
    exact ⟨h0, _, rfl⟩

theorem buildCols_head (prices : String → ℕ → ℚ) (weights : List (String × ℚ)) :
    ∃ h2 rest2, buildCols prices weights = (SPY, h2) :: rest2 := by
  rw [buildCols]
  suffices h : ∀ (ws : List (String × ℚ)) (h0 : ℕ → Option ℚ)
      (rest : List (String × (ℕ → Option ℚ))),
      ∃ h2 rest2, ws.foldl (fun cols kv => setCol cols kv.1 (weightedSeries prices kv))
        ((SPY, h0) :: rest) = (SPY, h2) :: rest2 by
    exact h weights _ []
  intro ws
  induction ws with
  | nil => exact fun h0 rest => ⟨h0, rest, rfl⟩
  | cons kv ws ih =>
    intro h0 rest
    rw [List.foldl_cons]
    rcases setCol_head h0 rest kv.1 (weightedSeries prices kv) with ⟨h2, rest2, he⟩
    rw [he]
    exact ih h2 rest2

theorem benchCol_zero (prices : String → ℕ → ℚ) (weights : List (String × ℚ)) :
    benchCol prices weights 0 = none := by
  rcases buildCols_head prices weights with ⟨h2, rest2, he⟩
  have hmem : (SPY, h2) ∈ buildCols prices weights := by
    rw [he]; exact List.mem_cons_self _ _
  have h0 : h2 0 = none := buildCols_col_zero hmem
  rw [benchCol, getCol, he]
  simp [List.find?, h0]

theorem stratInit_zero (prices : String → ℕ → ℚ) (weights : List (String × ℚ)) :
    stratInit prices weights 0 = 0 := by
  rw [stratInit, rowSumSkipNa]
  apply List.sum_eq_zero
  intro x hx
  rcases List.mem_map.1 hx with ⟨c, hc, rfl⟩
  have hm : c ∈ buildCols prices weights := List.mem_of_mem_filter hc
  rw [buildCols_col_zero hm]
  rfl

theorem getCol_mem_or_default (cols : List (String × (ℕ → Option ℚ))) (name : String) :
    (∃ c ∈ cols, getCol cols name = c.2) ∨ getCol cols name = fun _ => none := by
  rw [getCol]
  cases hf : cols.find? (fun c => c.1 == name) with
  | none => exact Or.inr rfl
  | some c => exact Or.inl ⟨c, List.mem_of_find?_eq_some hf, rfl⟩

theorem stratAll_zero (prices : String → ℕ → ℚ) (weights : List (String × ℚ)) :
    stratAll prices weights 0 = 0 := by
  rw [stratAll]
  apply List.sum_eq_zero
  intro x hx
  rcases List.mem_map.1 hx with ⟨kv, hkv, rfl⟩
  rcases getCol_mem_or_default (buildCols prices weights) kv.1 with ⟨c, hc, he⟩ | he
  · rw [he, buildCols_col_zero hc]; rfl
  · rw [he]; rfl

theorem stratFinal_closed (prices : String → ℕ → ℚ) (weights : List (String × ℚ))
    (reb : List ℕ) (t : ℕ) :
    stratFinal prices weights reb t =
      if reb.any (fun d => decide (d ≤ t)) then stratAll prices weights t
      else stratInit prices weights t := by
  rw [stratFinal]
  suffices h : ∀ (rs : List ℕ) (s : ℕ → ℚ),
      (rs.foldl (fun s d => fun t2 => if d ≤ t2 then stratAll prices weights t2 else s t2) s) t =
        if rs.any (fun d => decide (d ≤ t)) then stratAll prices weights t else s t by
    exact h reb _
  intro rs
  induction rs with
  | nil => intro s; simp
  | cons d rs ih =>
    intro s
    rw [List.foldl_cons, ih, List.any_cons]
    by_cases hd : d ≤ t
    · simp [hd]
    · simp [hd]

theorem stratFinal_zero (prices : String → ℕ → ℚ) (weights : List (String × ℚ))
    (reb : List ℕ) : stratFinal prices weights reb 0 = 0 := by
  rw [stratFinal_closed]
  split_ifs with h
  · exact stratAll_zero prices weights
  · exact stratInit_zero prices weights

theorem cumStrategy_zero (prices : String → ℕ → ℚ) (weights : List (String × ℚ))
    (reb : List ℕ) : cumStrategy prices weights reb 0 = 1 := by
  rw [cumStrategy, Finset.prod_range_one, stratFinal_zero]
  norm_num

theorem cumBench_zero (prices : String → ℕ → ℚ) (weights : List (String × ℚ)) :
    cumBench prices weights 0 = none := by
  rw [cumBench, cumOfOpt, benchCol_zero]
  rfl

theorem buildCols_structure (prices : String → ℕ → ℚ) :
    ∀ (ws : List (String × ℚ)) (s : ℕ → Option ℚ) (acc : List (String × ℚ)),
    (∀ kv ∈ acc, kv.1 ≠ SPY) →
    (∀ kv ∈ ws, kv.1 ∉ acc.map Prod.fst) →
    (ws.map Prod.fst).Nodup →
    ws.foldl (fun cols kv => setCol cols kv.1 (weightedSeries prices kv))
        ((SPY, s) :: acc.map (mkCol prices)) =
      (SPY, match ws.find? (fun kv => kv.1 == SPY) with
            | some kv => weightedSeries prices kv
            | none => s) ::
        ((acc ++ ws.filter (fun kv => !(kv.1 == SPY))).map (mkCol prices)) := by
  intro ws
  induction ws with
  | nil => intro s acc h1 h2 h3; simp
  | cons kv ws ih =>
    intro s acc h1 h2 h3
    rw [List.foldl_cons]
    have hkv_not_ws : kv.1 ∉ ws.map Prod.fst := (List.nodup_cons.1 h3).1
    by_cases hspy : kv.1 = SPY
    · have hany : (((SPY, s) :: acc.map (mkCol prices)).any (fun c => c.1 == kv.1)) = true := by
        simp [hspy]
      have hstep : setCol ((SPY, s) :: acc.map (mkCol prices)) kv.1 (weightedSeries prices kv)
          = (SPY, weightedSeries prices kv) :: acc.map (mkCol prices) := by
        rw [setCol, if_pos hany, List.map_cons]
        congr 1
        · simp [hspy]
        · rw [List.map_map]
          apply List.map_congr_left
          intro a ha
          have hne : a.1 ≠ kv.1 := fun he =>
            h2 kv (List.mem_cons_self _ _) (he ▸ List.mem_map_of_mem Prod.fst ha)
          simp [Function.comp, mkCol, hne]
      rw [hstep]
      rw [ih (weightedSeries prices kv) acc h1
        (fun kv2 hkv2 => h2 kv2 (List.mem_cons_of_mem _ hkv2)) (List.nodup_cons.1 h3).2]
      have hfind_ws : ws.find? (fun kv2 => kv2.1 == SPY) = none :=
        List.find?_eq_none.2 (fun x hx hpx => by
          have : x.1 = SPY := by simpa using hpx
          exact hkv_not_ws (hspy ▸ this ▸ List.mem_map_of_mem Prod.fst hx))
      have hfind_cons : (kv :: ws).find? (fun kv2 => kv2.1 == SPY) = some kv :=
        List.find?_cons_of_pos _ (by simp [hspy])
      rw [hfind_ws, hfind_cons]
      have hfilt : (kv :: ws).filter (fun kv2 => !(kv2.1 == SPY))
          = ws.filter (fun kv2 => !(kv2.1 == SPY)) :=
        List.filter_cons_of_neg (by simp [hspy])
      rw [hfilt]
    · have hany : (((SPY, s) :: acc.map (mkCol prices)).any (fun c => c.1 == kv.1)) = false := by
        rw [← Bool.not_eq_true, List.any_eq_true]
        rintro ⟨c, hc, hcc⟩
        rcases List.mem_cons.1 hc with rfl | hc2
        · exact hspy ((beq_iff_eq.1 hcc).symm)
        · rcases List.mem_map.1 hc2 with ⟨a, ha, rfl⟩
          have hae : a.1 = kv.1 := by simpa [mkCol] using hcc
          exact h2 kv (List.mem_cons_self _ _) (hae ▸ List.mem_map_of_mem Prod.fst ha)
      have hstep : setCol ((SPY, s) :: acc.map (mkCol prices)) kv.1 (weightedSeries prices kv)
          = (SPY, s) :: (acc ++ [kv]).map (mkCol prices) := by
        rw [setCol, if_neg (by rw [hany]; exact Bool.false_ne_true), List.cons_append,
          List.map_append]
        rfl
      rw [hstep]
      rw [ih s (acc ++ [kv])
        (fun a ha => by
          rcases List.mem_append.1 ha with h | h
          · exact h1 a h
          · rw [List.mem_singleton.1 h]; exact hspy)
        (fun kv2 hkv2 => by
          rw [List.map_append, List.mem_append]
          rintro (h | h)
          · exact h2 kv2 (List.mem_cons_of_mem _ hkv2) h
          · have : kv2.1 = kv.1 := by simpa using h
            exact hkv_not_ws (this ▸ List.mem_map_of_mem Prod.fst hkv2))
        (List.nodup_cons.1 h3).2]
      have hfind_cons : (kv :: ws).find? (fun kv2 => kv2.1 == SPY)
          = ws.find? (fun kv2 => kv2.1 == SPY) :=
        List.find?_cons_of_neg _ (by simp [hspy])
      rw [hfind_cons]
      have hfilt : (kv :: ws).filter (fun kv2 => !(kv2.1 == SPY))
          = kv :: ws.filter (fun kv2 => !(kv2.1 == SPY)) :=
        List.filter_cons_of_pos (by simp [hspy])
      rw [hfilt, List.append_assoc, List.singleton_append]

theorem buildCols_eq (prices : String → ℕ → ℚ) (weights : List (String × ℚ))
    (hnd : (weights.map Prod.fst).Nodup) :
    buildCols prices weights = (SPY, benchSeries prices weights) ::
      ((weights.filter (fun kv => !(kv.1 == SPY))).map (mkCol prices)) := by
  rw [buildCols]
  have h := buildCols_structure prices weights (pctChange (prices SPY)) [] (by simp) (by simp) hnd
  simpa [benchSeries] using h

theorem benchCol_eq (prices : String → ℕ → ℚ) (weights : List (String × ℚ))
    (hnd : (weights.map Prod.fst).Nodup) :
    benchCol prices weights = benchSeries prices weights := by
  rw [benchCol, buildCols_eq prices weights hnd, getCol,
    List.find?_cons_of_pos _ (by simp)]

theorem stratInit_eq (prices : String → ℕ → ℚ) (weights : List (String × ℚ))
    (hnd : (weights.map Prod.fst).Nodup) (t : ℕ) :
    stratInit prices weights t =
      ((weights.filter (fun kv => !(kv.1 == SPY))).map
        (fun kv => ((weightedSeries prices kv) t).getD 0)).sum := by
  rw [stratInit, buildCols_eq prices weights hnd, rowSumSkipNa,
    List.filter_cons_of_neg (by simp), List.filter_map, List.map_map]
  congr 1
  rw [show ((fun c => !(c.1 == SPY)) ∘ mkCol prices) = (fun kv => !(kv.1 == SPY)) from rfl,
    List.filter_filter]
  simp only [Bool.and_self]
  apply List.map_congr_left
  intro a _
  rfl

theorem getCol_weights (prices : String → ℕ → ℚ) {weights : List (String × ℚ)}
    (hnd : (weights.map Prod.fst).Nodup) {kv : String × ℚ} (hkv : kv ∈ weights) :
    getCol (buildCols prices weights) kv.1 = weightedSeries prices kv := by
  by_cases hspy : kv.1 = SPY
  · have h1 : getCol (buildCols prices weights) kv.1 = benchSeries prices weights := by
      rw [hspy, ← benchCol, benchCol_eq prices weights hnd]
    rw [h1, benchSeries]
    cases hf : weights.find? (fun kv2 => kv2.1 == SPY) with
    | none =>
      exfalso
      have := List.find?_eq_none.1 hf kv hkv
      simp [hspy] at this
    | some kv2 =>
      have h2 : kv2 ∈ weights := List.mem_of_find?_eq_some hf
      have hp := List.find?_some hf
      have h3 : kv2.1 = SPY := by simpa using hp
      rw [key_unique hnd h2 hkv (h3.trans hspy.symm)]
  · rw [getCol, buildCols_eq prices weights hnd,
      List.find?_cons_of_neg _ (by simp only [beq_iff_eq]; exact fun h => hspy h.symm),
      List.find?_map]
    have hcomp : ((fun c => c.1 == kv.1) ∘ mkCol prices) = (fun kv2 => kv2.1 == kv.1) := rfl
    rw [hcomp]
    cases hf : (weights.filter (fun kv2 => !(kv2.1 == SPY))).find? (fun kv2 => kv2.1 == kv.1) with
    | none =>
      exfalso
      have hin : kv ∈ weights.filter (fun kv2 => !(kv2.1 == SPY)) :=
        List.mem_filter.2 ⟨hkv, by simp [hspy]⟩
      have := List.find?_eq_none.1 hf kv hin
      simp at this
    | some kv2 =>
      have h2 : kv2 ∈ weights := List.mem_of_mem_filter (List.mem_of_find?_eq_some hf)
      have hp := List.find?_some hf
      have h3 : kv2.1 = kv.1 := by simpa using hp
      rw [Option.map_some']
      rw [key_unique hnd h2 hkv h3]
      rfl

theorem stratAll_eq (prices : String → ℕ → ℚ) (weights : List (String × ℚ))
    (hnd : (weights.map Prod.fst).Nodup) (t : ℕ) :
    stratAll prices weights t =
      (weights.map (fun kv => ((weightedSeries prices kv) t).getD 0)).sum := by
  rw [stratAll]
  congr 1
  apply List.map_congr_left
  intro kv hkv
  rw [getCol_weights prices hnd hkv]

theorem stratInit_eq_stratAll (prices : String → ℕ → ℚ) (weights : List (String × ℚ))
    (hnd : (weights.map Prod.fst).Nodup) (hspy : SPY ∉ weights.map Prod.fst) (t : ℕ) :
    stratInit prices weights t = stratAll prices weights t := by
  rw [stratInit_eq prices weights hnd t, stratAll_eq prices weights hnd t]
  congr 1
  rw [List.filter_eq_self.2]
  intro kv hkv
  simp only [Bool.not_eq_true']
  rw [beq_eq_false_iff_ne]
  intro he
  exact hspy (he ▸ List.mem_map_of_mem Prod.fst hkv)

/-! ## Helper lemmas: clean_weights -/

theorem roundHalfEven_abs_le (q : ℚ) : |(roundHalfEven q : ℚ) - q| ≤ 1 / 2 := by
  have hf0 : (0 : ℚ) ≤ q - Int.floor q := by
    have := Int.floor_le q; linarith
  have hf1 : q - Int.floor q < 1 := by
    have := Int.lt_floor_add_one q; linarith
  rw [roundHalfEven]
  split_ifs with h1 h2 h3
  · rw [abs_le]; constructor <;> linarith
  · push_cast
    rw [abs_le]; constructor <;> linarith
  · have he : q - Int.floor q = 1 / 2 := le_antisymm (not_lt.1 h2) (not_lt.1 h1)
    rw [abs_le]; constructor <;> linarith
  · have he : q - Int.floor q = 1 / 2 := le_antisymm (not_lt.1 h2) (not_lt.1 h1)
    push_cast
    rw [abs_le]; constructor <;> linarith

theorem roundHalfEven_nonneg {q : ℚ} (hq : 0 ≤ q) : 0 ≤ roundHalfEven q := by
  have h0 : (0 : ℤ) ≤ Int.floor q := Int.floor_nonneg.2 hq
  rw [roundHalfEven]
  split_ifs <;> omega

theorem cleanWeight_nonneg {q : ℚ} (hq : 0 ≤ q) : 0 ≤ cleanWeight q := by
  rw [cleanWeight]
  split_ifs with h
  · exact le_refl 0
  · rw [npRound5]
    apply div_nonneg _ (by norm_num)
    exact_mod_cast roundHalfEven_nonneg (by positivity)

theorem cleanWeight_abs_le (q : ℚ) : |cleanWeight q - q| ≤ 1 / 10000 := by
  rw [cleanWeight]
  split_ifs with h
  · rw [zero_sub, abs_neg]
    linarith [le_of_lt h]
  · rw [npRound5]
    have hb := roundHalfEven_abs_le (q * 100000)
    rw [show (roundHalfEven (q * 100000) : ℚ) / 100000 - q
        = ((roundHalfEven (q * 100000) : ℚ) - q * 100000) / 100000 by ring]
    rw [abs_div, abs_of_pos (show (0 : ℚ) < 100000 by norm_num)]
    calc |(roundHalfEven (q * 100000) : ℚ) - q * 100000| / 100000
        ≤ (1 / 2) / 100000 := (div_le_div_iff_of_pos_right (by norm_num)).2 hb
      _ ≤ 1 / 10000 := by norm_num

theorem cleanWeights_sum_close (ws : List ℚ) :
    |(cleanWeights ws).sum - ws.sum| ≤ (ws.length : ℚ) * (1 / 10000) := by
  induction ws with
  | nil => simp [cleanWeights]
  | cons x xs ih =>
    rw [cleanWeights] at ih ⊢
    simp only [List.map_cons, List.sum_cons, List.length_cons]
    push_cast
    calc |cleanWeight x + (xs.map cleanWeight).sum - (x + xs.sum)|
        = |(cleanWeight x - x) + ((xs.map cleanWeight).sum - xs.sum)| := by ring_nf
      _ ≤ |cleanWeight x - x| + |(xs.map cleanWeight).sum - xs.sum| := abs_add _ _
      _ ≤ 1 / 10000 + (xs.length : ℚ) * (1 / 10000) := add_le_add (cleanWeight_abs_le x) ih
      _ = ((xs.length : ℚ) + 1) * (1 / 10000) := by ring

/-! ## Helper lemmas: allocator -/

theorem argmaxIdx_eq_none {f : ℕ → ℚ} {l : List ℕ} : argmaxIdx f l = none ↔ l = [] := by
  cases l with
  | nil => simp [argmaxIdx]
  | cons x xs =>
    have h : ∃ z, argmaxIdx f (x :: xs) = some z := by
      rw [argmaxIdx]
      cases argmaxIdx f xs with
      | none => exact ⟨x, rfl⟩
      | some y =>
        dsimp only
        by_cases hc : f x < f y
        · exact ⟨y, if_pos hc⟩
        · exact ⟨x, if_neg hc⟩
    rcases h with ⟨z, hz⟩
    simp [hz]

theorem argmaxIdx_mem {f : ℕ → ℚ} : ∀ {l : List ℕ} {i : ℕ}, argmaxIdx f l = some i → i ∈ l := by
  intro l
  induction l with
  | nil => intro i h; simp [argmaxIdx] at h
  | cons x xs ih =>
    intro i h
    rw [argmaxIdx] at h
    cases hm : argmaxIdx f xs with
    | none =>
      rw [hm] at h
      cases h
      exact List.mem_cons_self _ _
    | some y =>
      rw [hm] at h
      dsimp only at h
      split_ifs at h
      · cases h; exact List.mem_cons_of_mem _ (ih hm)
      · cases h; exact List.mem_cons_self _ _

theorem mem_affordables {assets : List (String × ℚ × ℚ)} {c : ℚ} {i : ℕ} :
    i ∈ affordables assets c ↔ i < assets.length ∧ assetPrice assets i ≤ c := by
  simp [affordables, List.mem_filter, List.mem_range]

theorem minPrice_le {assets : List (String × ℚ × ℚ)} {i : ℕ} (h : i < assets.length) :
    minPrice assets ≤ assetPrice assets i := by
  apply listMinQ_le
  rw [assetPrice, List.getD_eq_getElem assets _ h]
  exact List.mem_map_of_mem _ (List.getElem_mem _)

theorem minPrice_mem {assets : List (String × ℚ × ℚ)} (h : assets ≠ []) :
    ∃ i, i < assets.length ∧ minPrice assets = assetPrice assets i := by
  have h1 : minPrice assets ∈ assets.map (fun a => a.2.2) := listMinQ_mem (by simpa using h)
  rcases List.mem_map.1 h1 with ⟨a, ha, he⟩
  rcases List.getElem_of_mem ha with ⟨i, hi, hie⟩
  refine ⟨i, hi, ?_⟩
  rw [assetPrice, List.getD_eq_getElem assets _ hi, hie, he]

theorem minPrice_pos {assets : List (String × ℚ × ℚ)} (h : assets ≠ [])
    (hp : ∀ a ∈ assets, 0 < a.2.2) : 0 < minPrice assets := by
  have h1 : minPrice assets ∈ assets.map (fun a => a.2.2) := listMinQ_mem (by simpa using h)
  rcases List.mem_map.1 h1 with ⟨a, ha, he⟩
  rw [← he]
  exact hp a ha

theorem greedyStep_none {budget : ℚ} {assets : List (String × ℚ × ℚ)} {st : List ℕ × ℚ}
    (h : greedyStep budget assets st = none) (hne : assets ≠ []) :
    st.2 < minPrice assets := by
  rw [greedyStep] at h
  cases hm : argmaxIdx (shortfallAt budget assets st.1) (affordables assets st.2) with
  | some i => rw [hm] at h; cases h
  | none =>
    have hemp : affordables assets st.2 = [] := argmaxIdx_eq_none.1 hm
    rcases minPrice_mem hne with ⟨i, hi, he⟩
    rw [he]
    by_contra hc
    push_neg at hc
    have hin : i ∈ affordables assets st.2 := mem_affordables.2 ⟨hi, hc⟩
    rw [hemp] at hin
    simp at hin

theorem greedyStep_some {budget : ℚ} {assets : List (String × ℚ × ℚ)} {st st2 : List ℕ × ℚ}
    (h : greedyStep budget assets st = some st2) :
    ∃ i, i < assets.length ∧ assetPrice assets i ≤ st.2 ∧
      st2.2 = st.2 - assetPrice assets i := by
  rw [greedyStep] at h
  cases hm : argmaxIdx (shortfallAt budget assets st.1) (affordables assets st.2) with
  | none => rw [hm] at h; cases h
  | some i =>
    rw [hm] at h
    have him := argmaxIdx_mem hm
    rcases mem_affordables.1 him with ⟨hi, hp⟩
    cases h
    exact ⟨i, hi, hp, rfl⟩

theorem greedyAlloc_leftover {budget : ℚ} {assets : List (String × ℚ × ℚ)}
    (hne : assets ≠ []) :
    ∀ (fuel : ℕ) (st : List ℕ × ℚ), 0 ≤ st.2 → st.2 < (fuel : ℚ) * minPrice assets →
      (greedyAlloc budget assets fuel st).2 < minPrice assets := by
  intro fuel
  induction fuel with
  | zero =>
    intro st h0 hf
    rw [Nat.cast_zero, zero_mul] at hf
    linarith
  | succ m ih =>
    intro st h0 hf
    rw [greedyAlloc]
    cases hs : greedyStep budget assets st with
    | none => exact greedyStep_none hs hne
    | some st2 =>
      rcases greedyStep_some hs with ⟨i, hi, hp, he⟩
      apply ih st2
      · rw [he]; linarith
      · rw [he]
        have hmin := minPrice_le hi
        rw [Nat.cast_succ] at hf
        nlinarith [hf, hmin, hp]

theorem sum_range_getD {α : Type} (l : List α) (d : α) (f : α → ℚ) :
    ((List.range l.length).map (fun i => f (l.getD i d))).sum = (l.map f).sum := by
  induction l with
  | nil => simp
  | cons x xs ih =>
    rw [List.length_cons, List.range_succ_eq_map, List.map_cons, List.map_map, List.sum_cons,
      List.getD_cons_zero]
    have hc : ((fun i => f ((x :: xs).getD i d)) ∘ Nat.succ) = (fun i => f (xs.getD i d)) := by
      funext i
      simp [Function.comp, List.getD_cons_succ]
    rw [hc, ih, List.map_cons, List.sum_cons]

theorem allocSpent_nonneg {assets : List (String × ℚ × ℚ)} (hp : ∀ a ∈ assets, 0 < a.2.2)
    (units : List ℕ) : 0 ≤ allocSpent assets units := by
  rw [allocSpent]
  apply List.sum_nonneg
  intro x hx
  rcases List.mem_map.1 hx with ⟨i, hi, rfl⟩
  rw [List.mem_range] at hi
  have hm : assets.getD i ("", 0, 0) ∈ assets := by
    rw [List.getD_eq_getElem _ _ hi]
    exact List.getElem_mem _
  have := le_of_lt (hp _ hm)
  rw [assetPrice]
  positivity

theorem exact_mod_cast_helper {x : ℤ} (h : (x.toNat : ℤ) = x) : ((x.toNat : ℕ) : ℚ) = (x : ℚ) := by
  exact_mod_cast congrArg (fun z : ℤ => (z : ℚ)) h

theorem getD_map {α β : Type} (g : α → β) (l : List α) (d : α) (d2 : β) {i : ℕ}
    (h : i < l.length) : (l.map g).getD i d2 = g (l.getD i d) := by
  rw [List.getD_eq_getElem _ _ (by simpa using h), List.getD_eq_getElem _ _ h, List.getElem_map]

theorem getD_mem {α : Type} {l : List α} {d : α} {i : ℕ} (h : i < l.length) :
    l.getD i d ∈ l := by
  rw [List.getD_eq_getElem _ _ h]
  exact List.getElem_mem _

theorem firstPass_spent_le {budget : ℚ} {assets : List (String × ℚ × ℚ)}
    (hw : ∀ a ∈ assets, 0 ≤ a.2.1) (hp : ∀ a ∈ assets, 0 < a.2.2)
    (hb : 0 ≤ budget) (hsum : (assets.map (fun a => a.2.1)).sum ≤ 1) :
    allocSpent assets (firstPassUnits budget assets) ≤ budget := by
  rw [allocSpent]
  have hstep : ∀ i ∈ List.range assets.length,
      ((firstPassUnits budget assets).getD i 0 : ℚ) * assetPrice assets i
        ≤ (fun j => assetWeight assets j * budget) i := by
    intro i hi
    rw [List.mem_range] at hi
    have hgd : (firstPassUnits budget assets).getD i 0
        = (Int.floor ((assets.getD i ("", 0, 0)).2.1 * budget
            / (assets.getD i ("", 0, 0)).2.2)).toNat := by
      rw [firstPassUnits]
      exact getD_map _ _ _ _ hi
    have hmem : assets.getD i ("", 0, 0) ∈ assets := getD_mem hi
    have hwa : 0 ≤ (assets.getD i ("", 0, 0)).2.1 := hw _ hmem
    have hpa : 0 < (assets.getD i ("", 0, 0)).2.2 := hp _ hmem
    have harg : 0 ≤ (assets.getD i ("", 0, 0)).2.1 * budget
        / (assets.getD i ("", 0, 0)).2.2 := by positivity
    have h1 : ((Int.floor ((assets.getD i ("", 0, 0)).2.1 * budget
          / (assets.getD i ("", 0, 0)).2.2)).toNat : ℚ)
        ≤ (assets.getD i ("", 0, 0)).2.1 * budget / (assets.getD i ("", 0, 0)).2.2 := by
      have h2 := Int.toNat_of_nonneg (Int.floor_nonneg.2 harg)
      calc ((Int.floor ((assets.getD i ("", 0, 0)).2.1 * budget
              / (assets.getD i ("", 0, 0)).2.2)).toNat : ℚ)
          = ((Int.floor ((assets.getD i ("", 0, 0)).2.1 * budget
              / (assets.getD i ("", 0, 0)).2.2) : ℤ) : ℚ) :=
            exact_mod_cast_helper h2
        _ ≤ _ := Int.floor_le _
    dsimp only
    rw [hgd, assetPrice, assetWeight]
    calc ((Int.floor ((assets.getD i ("", 0, 0)).2.1 * budget
            / (assets.getD i ("", 0, 0)).2.2)).toNat : ℚ) * (assets.getD i ("", 0, 0)).2.2
        ≤ ((assets.getD i ("", 0, 0)).2.1 * budget / (assets.getD i ("", 0, 0)).2.2)
            * (assets.getD i ("", 0, 0)).2.2 := mul_le_mul_of_nonneg_right h1 (le_of_lt hpa)
      _ = (assets.getD i ("", 0, 0)).2.1 * budget := div_mul_cancel₀ _ (ne_of_gt hpa)
  calc ((List.range assets.length).map
          (fun i => ((firstPassUnits budget assets).getD i 0 : ℚ) * assetPrice assets i)).sum
      ≤ ((List.range assets.length).map (fun j => assetWeight assets j * budget)).sum :=
        List.sum_le_sum hstep
    _ = (assets.map (fun a => a.2.1 * budget)).sum := by
        have hsr := sum_range_getD assets ("", 0, 0) (fun a => a.2.1 * budget)
        rw [← hsr]
        congr 1
    _ = (assets.map (fun a => a.2.1)).sum * budget := List.sum_map_mul_right _ _ _
    _ ≤ 1 * budget := mul_le_mul_of_nonneg_right hsum hb
    _ = budget := one_mul _

/-! ## Remaining helper lemmas -/

theorem buildCols_col_succ {prices : String → ℕ → ℚ} {weights : List (String × ℚ)}
    {c : String × (ℕ → Option ℚ)} (hc : c ∈ buildCols prices weights) (t : ℕ) :
    c.2 (t + 1) ≠ none := by
  rcases mem_buildCols hc with rfl | ⟨kv, _, rfl⟩
  · simp [pctChange]
  · simp [mkCol, weightedSeries, pctChange]

theorem cumBench_succ_ne_none (prices : String → ℕ → ℚ) (weights : List (String × ℚ))
    (t : ℕ) : cumBench prices weights (t + 1) ≠ none := by
  rcases buildCols_head prices weights with ⟨h2, rest2, he⟩
  have hmem : (SPY, h2) ∈ buildCols prices weights := by
    rw [he]; exact List.mem_cons_self _ _
  have hb : benchCol prices weights = h2 := by
    rw [benchCol, getCol, he]
    simp [List.find?]
  rw [cumBench, cumOfOpt, hb]
  cases hs : h2 (t + 1) with
  | none => exact absurd hs (buildCols_col_succ hmem t)
  | some q => simp

/-! ## Claim theorems -/

/-- Claim C1 (counterexample): the claim "the cumulative series value at the
first common date equals 1.0 for both series" is false for the benchmark:
`pct_change` leaves `NaN` at the first row, and `(1 + NaN).cumprod()` is `NaN`
there, so `cum_returns['SPY']` is undefined (not `1.0`) at the first date —
here on a concrete three-day price table with equal `A`/`B` weights. -/
theorem claim_C1_counterexample : cumBench cPrices cWeightsAB 0 ≠ some 1 := by
  rw [cumBench_zero]
  exact fun h => Option.noConfusion h

/-- Claim C1 (amended): for every price table, weights mapping, and rebalance
set, the strategy cumulative series equals 1.0 at the first common date (its
first daily return is the skip-`NaN` row sum 0.0, so the running product starts
at 1.0), but the benchmark cumulative series is `NaN` (undefined) at the first
date and defined at every later date, where it equals the running product of
(1 + daily return) over the days after the first. -/
theorem claim_C1_amended (prices : String → ℕ → ℚ) (weights : List (String × ℚ))
    (reb : List ℕ) :
    cumStrategy prices weights reb 0 = 1 ∧ cumBench prices weights 0 = none ∧
      ∀ t, t ≠ 0 → cumBench prices weights t ≠ none := by
  refine ⟨cumStrategy_zero prices weights reb, cumBench_zero prices weights, ?_⟩
  intro t ht
  cases t with
  | zero => exact absurd rfl ht
  | succ m => exact cumBench_succ_ne_none prices weights m

/-- Claim C1 (witness for the amended claim): the amended claim evaluated on the
concrete three-day table. -/
theorem claim_C1_witness :
    cumStrategy cPrices cWeightsAB [] 0 = 1 ∧ cumBench cPrices cWeightsAB 0 = none ∧
      cumBench cPrices cWeightsAB 1 ≠ none := by
  have h := claim_C1_amended cPrices cWeightsAB []
  exact ⟨h.1, h.2.1, h.2.2 1 (by decide)⟩

/-- Claim C2 (counterexample): the code's effective weights do not drift.  On
the three-day table (`A` doubles twice, `B` flat, equal target weights, no
rebalance date in range) the code's day-2 strategy return is `0.5 × 1 = 1/2`
(constant target weights), while the spec's drift model (`effWeights`) holds
2/3 in `A` after day 1 and yields 2/3 — so the claimed drifting-weights return
disagrees with the code. -/
theorem claim_C2_counterexample :
    stratFinal cPrices cWeightsAB [] 2 = 1 / 2 ∧
      driftReturn cPrices cWeightsAB [] 2 = 2 / 3 ∧
      stratFinal cPrices cWeightsAB [] 2 ≠ driftReturn cPrices cWeightsAB [] 2 := by
  have h1 : stratFinal cPrices cWeightsAB [] 2 = 1 / 2 := by
    norm_num +decide [stratFinal, stratInit, rowSumSkipNa, buildCols, setCol, weightedSeries,
      pctChange, getCol, SPY, cWeightsAB, cPrices]
  have h2 : driftReturn cPrices cWeightsAB [] 2 = 2 / 3 := by
    norm_num +decide [driftReturn, effWeights, pctChange, cWeightsAB, cPrices]
  refine ⟨h1, h2, ?_⟩
  rw [h1, h2]
  norm_num

/-- Claim C2 (amended): the effective per-asset weights never drift — they stay
at the optimizer's target weights for the whole backtest.  The strategy daily
return on day `t` is the sum over assets of (constant target weight × asset
daily return), where the sum excludes the `'SPY'` term before the first
in-range rebalance date and includes every weighted column from that date on
(the rebalance loop's only effect); when `'SPY'` is not a weights key the
return is the plain target-weighted sum on every day. -/
theorem claim_C2_amended (prices : String → ℕ → ℚ) (weights : List (String × ℚ))
    (reb : List ℕ) (t : ℕ) (hnd : (weights.map Prod.fst).Nodup) :
    (stratFinal prices weights reb t =
      if reb.any (fun d => decide (d ≤ t)) then
        (weights.map (fun kv => ((weightedSeries prices kv) t).getD 0)).sum
      else ((weights.filter (fun kv => !(kv.1 == SPY))).map
        (fun kv => ((weightedSeries prices kv) t).getD 0)).sum) ∧
    (SPY ∉ weights.map Prod.fst →
      stratFinal prices weights reb t =
        (weights.map (fun kv => ((weightedSeries prices kv) t).getD 0)).sum) := by
  constructor
  · rw [stratFinal_closed]
    split_ifs
    · exact stratAll_eq prices weights hnd t
    · exact stratInit_eq prices weights hnd t
  · intro hspy
    rw [stratFinal_closed]
    split_ifs
    · exact stratAll_eq prices weights hnd t
    · rw [stratInit_eq_stratAll prices weights hnd hspy t]
      exact stratAll_eq prices weights hnd t

/-- Claim C2 (witness for the amended claim): the amended claim evaluated on the
concrete three-day table with equal `A`/`B` weights. -/
theorem claim_C2_witness :
    (stratFinal cPrices cWeightsAB [] 2 =
      ((cWeightsAB.filter (fun kv => !(kv.1 == SPY))).map
        (fun kv => ((weightedSeries cPrices kv) 2).getD 0)).sum) ∧
    (stratFinal cPrices cWeightsAB [] 2 =
      (cWeightsAB.map (fun kv => ((weightedSeries cPrices kv) 2).getD 0)).sum) := by
  have h := claim_C2_amended cPrices cWeightsAB [] 2 (by decide)
  constructor
  · have h1 := h.1
    simpa using h1
  · exact h.2 (by decide)

/-- Claim C3 (counterexample): on five records with defined scores and the
source's own fraction 0.3, the selector takes `int(5 * 0.3) = int(1.5) = 1`
asset — not the claimed `ceil(1.5) = 2`, and fewer than the claimed minimum of
2. -/
theorem claim_C3_counterexample :
    (selectTop (3 / 10) recs5).length = 1 ∧ Nat.ceil ((3 / 10 : ℚ) * 5) = 2 ∧
      ¬ 2 ≤ (selectTop (3 / 10) recs5).length := by
  have h1 : selectTop (3 / 10) recs5 = ["A"] := by
    norm_num +decide [selectTop, selectTopScored, rankedRecs, validRecs, recs5, selectCount,
      List.insertionSort, List.orderedInsert, scoreGE]
  have h2 : Nat.ceil ((3 / 10 : ℚ) * 5) = 2 := by
    rw [Nat.ceil_eq_iff] <;> norm_num
  refine ⟨by rw [h1]; rfl, h2, by rw [h1]; norm_num⟩

/-- Claim C3 (amended): for every selection fraction `f` and record set, the
selector selects `min(int(f × N), number of records with a defined score)`
assets, where `N` is the universe size and `int` truncates (floor for
non-negative products); there is no 2-asset minimum, so fewer than 2 (even 0)
assets can be selected. -/
theorem claim_C3_amended (f : ℚ) (recs : List (String × Option ℚ)) :
    (selectTop f recs).length =
      min ((Int.floor ((recs.length : ℚ) * f)).toNat) (validRecs recs).length := by
  simp [selectTop, selectTopScored, rankedRecs, List.length_insertionSort, selectCount]

/-- Claim C4 (counterexample): the exact equal-weight solution
`[1/3, 1/3, 1/3]` (non-negative, summing to exactly 1) is cleaned by
`clean_weights` to `[0.33333, 0.33333, 0.33333]`, whose sum `0.99999` misses
1.0 by `1e-5 > 1e-6`. -/
theorem claim_C4_counterexample :
    (([1 / 3, 1 / 3, 1 / 3] : List ℚ).all (fun w => decide (0 ≤ w))) = true ∧
      ([1 / 3, 1 / 3, 1 / 3] : List ℚ).sum = 1 ∧
      (cleanWeights [1 / 3, 1 / 3, 1 / 3]).sum = 99999 / 100000 ∧
      ¬ |(cleanWeights [1 / 3, 1 / 3, 1 / 3]).sum - 1| ≤ 1 / 1000000 := by
  have h3 : (cleanWeights [1 / 3, 1 / 3, 1 / 3]).sum = 99999 / 100000 := by
    norm_num +decide [cleanWeights, cleanWeight, npRound5, roundHalfEven, abs_of_pos]
  refine ⟨by norm_num, by norm_num, h3, ?_⟩
  rw [h3]
  rw [abs_of_nonpos (by norm_num)]
  norm_num

/-- Claim C4 (amended): for every exact solver output (weights non-negative,
summing to 1), the cleaned WeightVector returned by `optimize_portfolio` has
all weights non-negative, and its sum is within `n × 1e-4` of 1.0 (each weight
is zeroed when below the `1e-4` cutoff or rounded to 5 decimals, without
renormalising) — but not within the claimed `1e-6`. -/
theorem claim_C4_amended (ws : List ℚ) (hw : ∀ w ∈ ws, 0 ≤ w) (hsum : ws.sum = 1) :
    (∀ w ∈ cleanWeights ws, 0 ≤ w) ∧
      |(cleanWeights ws).sum - 1| ≤ (ws.length : ℚ) * (1 / 10000) := by
  constructor
  · intro w hw2
    rcases List.mem_map.1 hw2 with ⟨x, hx, rfl⟩
    exact cleanWeight_nonneg (hw x hx)
  · have h := cleanWeights_sum_close ws
    rw [hsum] at h
    exact h

/-- Claim C4 (witness for the amended claim): the amended claim evaluated on the
two-asset equal-weight vector. -/
theorem claim_C4_witness :
    |(cleanWeights [1 / 2, 1 / 2]).sum - 1| ≤
      (([1 / 2, 1 / 2] : List ℚ).length : ℚ) * (1 / 10000) :=
  (claim_C4_amended [1 / 2, 1 / 2] (by norm_num) (by norm_num)).2

/-- Claim C5: whenever both window returns are defined, the composite score is
`0.4 × (6-month return) + 0.6 × (12-month return)`; and on the spec's two-asset
scenario (`A`: 6m 10%, 12m 20%, score 0.16; `B`: 6m 2%, 12m −5%, score −0.022)
with selection fraction 0.5 of the 2-asset universe, only `A` is selected. -/
theorem claim_C5 :
    (∀ (p : ℕ → ℚ) (n : ℕ) (r6 r12 : ℚ), windowReturn p n 126 = some r6 →
        windowReturn p n 252 = some r12 → totalScore p n = some (r6 * 0.4 + r12 * 0.6)) ∧
      totalScore pA 253 = some (4 / 25) ∧ totalScore pB 253 = some (-(11 / 500)) ∧
      selectTop (1 / 2) recsAB = ["A"] := by
  refine ⟨?_, ?_, ?_, ?_⟩
  · intro p n r6 r12 h6 h12
    rw [totalScore, h6, h12]
  · norm_num +decide [totalScore, windowReturn, pA]
  · norm_num +decide [totalScore, windowReturn, pB]
  · norm_num +decide [selectTop, selectTopScored, rankedRecs, validRecs, recsAB, selectCount,
      List.insertionSort, List.orderedInsert, scoreGE, totalScore, windowReturn, pA, pB]

/-- Claim C5 (witness): the composite-score formula evaluated on the scenario
series `pA` (6m return 1/10, 12m return 1/5). -/
theorem claim_C5_witness : totalScore pA 253 = some ((1 / 10) * 0.4 + (1 / 5) * 0.6) :=
  claim_C5.1 pA 253 (1 / 10) (1 / 5)
    (by norm_num +decide [windowReturn, pA])
    (by norm_num +decide [windowReturn, pA])

/-- Claim C6 (counterexample): ties are NOT broken by ticker lexical order but
by storage position (`nlargest` keeps the first row): the same two equal-score
records stored as `[B, A]` select `B`, stored as `[A, B]` select `A` — so two
record sets with equal per-asset scores in different storage order give
different selections, contradicting the claimed order-invariance. -/
theorem claim_C6_counterexample :
    selectTop (1 / 2) recsTieBA ≠ selectTop (1 / 2) recsTieAB := by
  have h1 : selectTop (1 / 2) recsTieBA = ["B"] := by
    norm_num +decide [selectTop, selectTopScored, rankedRecs, validRecs, recsTieBA, selectCount,
      List.insertionSort, List.orderedInsert, scoreGE]
  have h2 : selectTop (1 / 2) recsTieAB = ["A"] := by
    norm_num +decide [selectTop, selectTopScored, rankedRecs, validRecs, recsTieAB, selectCount,
      List.insertionSort, List.orderedInsert, scoreGE]
  rw [h1, h2]
  decide

/-- Claim C6 (amended): the selector orders assets descending by composite
score, with ties broken by first occurrence in storage order (pandas
`nlargest`, `keep='first'`), not by ticker lexical order; selection is a pure
function of the stored record list (deterministic across repeated runs on the
identical input), but permuting tied records changes the selection, as the
`[B, A]` / `[A, B]` instances show. -/
theorem claim_C6_amended :
    (∀ (f : ℚ) (recs : List (String × Option ℚ)),
        ((selectTopScored f recs).map Prod.snd).Pairwise (fun a b => b ≤ a)) ∧
      selectTop (1 / 2) recsTieBA = ["B"] ∧ selectTop (1 / 2) recsTieAB = ["A"] := by
  refine ⟨?_, ?_, ?_⟩
  · intro f recs
    exact (selectTopScored_sorted f recs).map _ (fun a b h => h)
  · norm_num +decide [selectTop, selectTopScored, rankedRecs, validRecs, recsTieBA, selectCount,
      List.insertionSort, List.orderedInsert, scoreGE]
  · norm_num +decide [selectTop, selectTopScored, rankedRecs, validRecs, recsTieAB, selectCount,
      List.insertionSort, List.orderedInsert, scoreGE]

/-- Claim C7: for every cumulative series with at least two observations, the
reporter computes annualized return = mean(daily return) × 252 over the
`n − 1` paired daily returns; annualized volatility = sample stdev × √252;
Sharpe ratio = annualized return / annualized volatility, and a zero
volatility yields the IEEE non-finite embedded result (`none`) rather than a
crash; maximum drawdown is the minimum over time of
(cumulative value / running peak − 1); and the CAGR exponent `1/(n/252)`
equals the spec's `252/n`. -/
theorem claim_C7 (v : ℕ → ℚ) (n : ℕ) (hn : 2 ≤ n) :
    annualReturn v n = meanQ (specReturns v n) * 252 ∧
    annualVol v n = Real.sqrt ((sampleVar (specReturns v n) : ℝ)) * Real.sqrt 252 ∧
    (sampleVar (specReturns v n) = 0 → sharpeRatio v n = none) ∧
    (annualVol v n ≠ 0 →
      sharpeRatio v n = some ((annualReturn v n : ℝ) / annualVol v n)) ∧
    (∀ t, t < n → maxDrawdown v n ≤ v t / specPeak v t - 1) ∧
    (∃ t, t < n ∧ maxDrawdown v n = v t / specPeak v t - 1) ∧
    cagr v n = specCagr v n := by
  refine ⟨?_, ?_, ?_, ?_, ?_, ?_, ?_⟩
  · rw [annualReturn, dailyReturns_eq_specReturns]
  · rw [annualVol, dailyReturns_eq_specReturns]
  · intro h
    have hv : annualVol v n = 0 := by
      rw [annualVol, dailyReturns_eq_specReturns, h]
      simp
    rw [sharpeRatio, if_pos hv]
  · intro h
    rw [sharpeRatio, if_neg h]
  · intro t ht
    have hmem : v t / runMax v t - 1 ∈ (List.range n).map (fun s => v s / runMax v s - 1) :=
      List.mem_map_of_mem _ (List.mem_range.2 ht)
    have := listMinQ_le hmem
    rw [maxDrawdown] at *
    rw [← runMax_eq_specPeak]
    exact this
  · have hne : (List.range n).map (fun s => v s / runMax v s - 1) ≠ [] := by
      have : n ≠ 0 := by omega
      simp [this]
    have hmem := listMinQ_mem hne
    rcases List.mem_map.1 hmem with ⟨t, ht, he⟩
    refine ⟨t, List.mem_range.1 ht, ?_⟩
    rw [maxDrawdown, ← he, runMax_eq_specPeak]
  · rw [cagr, specCagr, one_div_div]

/-- Claim C7 (witness): the reporter's contract evaluated on the constant
series `1, 1` of two observations. -/
theorem claim_C7_witness :
    annualReturn (fun _ => (1 : ℚ)) 2 = meanQ (specReturns (fun _ => (1 : ℚ)) 2) * 252 ∧
    sharpeRatio (fun _ => (1 : ℚ)) 2 = none ∧
    cagr (fun _ => (1 : ℚ)) 2 = specCagr (fun _ => (1 : ℚ)) 2 := by
  have h := claim_C7 (fun _ => (1 : ℚ)) 2 (by norm_num)
  have hvar : sampleVar (specReturns (fun _ => (1 : ℚ)) 2) = 0 := by
    have hs : specReturns (fun _ => (1 : ℚ)) 2 = [0] := by
      norm_num [specReturns, show List.range 1 = [0] from rfl]
    rw [hs]
    norm_num [sampleVar, meanQ]
  exact ⟨h.1, h.2.2.1 hvar, h.2.2.2.2.2.2⟩

/-- Claim C8 (modelled from the spec, §4.6 — the allocator lives in the
external `pypfopt` package): whenever the budget suffices to buy at least one
unit of every selected asset (and the weights are a sub-stochastic
non-negative vector over positively priced assets), the greedy allocation run
to completion leaves less cash than the cheapest selected asset's price; and
on the scenario (budget $1000, one asset at $300 with weight 100%) it returns
3 units with $100 leftover. -/
theorem claim_C8 :
    (∀ (budget : ℚ) (assets : List (String × ℚ × ℚ)) (fuel : ℕ),
      assets ≠ [] →
      (∀ a ∈ assets, 0 < a.2.2) →
      (∀ a ∈ assets, 0 ≤ a.2.1) →
      (assets.map (fun a => a.2.1)).sum ≤ 1 →
      (∀ a ∈ assets, a.2.2 ≤ budget) →
      budget < (fuel : ℚ) * minPrice assets →
      (allocate budget assets fuel).2 < minPrice assets) ∧
    allocate 1000 cAssetX 4 = ([3], 100) := by
  constructor
  · intro budget assets fuel hne hp hw hsum hbud hfuel
    have hb0 : 0 ≤ budget := by
      rcases List.exists_mem_of_ne_nil assets hne with ⟨a, ha⟩
      exact le_trans (le_of_lt (hp a ha)) (hbud a ha)
    rw [allocate]
    apply greedyAlloc_leftover hne fuel
    · have := firstPass_spent_le hw hp hb0 hsum
      dsimp only
      linarith
    · have := allocSpent_nonneg hp (firstPassUnits budget assets)
      dsimp only
      linarith
  · have h1 : firstPassUnits 1000 cAssetX = [3] := by
      norm_num [firstPassUnits, cAssetX]
      rfl
    have h2 : allocSpent cAssetX [3] = 900 := by
      norm_num [allocSpent, cAssetX, assetPrice, List.range_succ]
    have h3 : affordables cAssetX 100 = [] := by
      norm_num [affordables, cAssetX, assetPrice, List.range_succ, List.filter]
    rw [allocate, h1, h2]
    norm_num [greedyAlloc, greedyStep, h3, argmaxIdx]

/-- Claim C8 (witness): the greedy leftover bound evaluated on the scenario
input (fuel 4 suffices since 4 × $300 > $1000). -/
theorem claim_C8_witness : (allocate 1000 cAssetX 4).2 < minPrice cAssetX :=
  claim_C8.1 1000 cAssetX 4 (by simp [cAssetX])
    (by intro a ha; simp [cAssetX] at ha; rw [ha]; norm_num)
    (by intro a ha; simp [cAssetX] at ha; rw [ha]; norm_num)
    (by norm_num [cAssetX])
    (by intro a ha; simp [cAssetX] at ha; rw [ha]; norm_num)
    (by norm_num [minPrice, cAssetX, listMinQ])

/-- Claim C9: a price series with no more observations than a lookback window
has an undefined (`NaN`) window return; an undefined 12-month window makes the
composite score undefined; every selected asset has a defined composite score
(undefined-score assets are excluded from ranking and selection, never
defaulted to 0); and the run continues for the remaining assets — on the
concrete records with a data-gapped asset `S`, selection returns the defined
assets `A`, `B` without error. -/
theorem claim_C9 :
    (∀ (p : ℕ → ℚ) (n k : ℕ), n ≤ k → windowReturn p n k = none) ∧
    (∀ (p : ℕ → ℚ) (n : ℕ), n ≤ 252 → totalScore p n = none) ∧
    (∀ (f : ℚ) (recs : List (String × Option ℚ)) (name : String),
        name ∈ selectTop f recs → ∃ q, (name, some q) ∈ recs) ∧
    selectTop (2 / 3) recsGap = ["A", "B"] := by
  refine ⟨?_, ?_, ?_, ?_⟩
  · intro p n k h
    rw [windowReturn, if_neg (by omega)]
  · intro p n h
    have h12 : windowReturn p n 252 = none := by
      rw [windowReturn, if_neg (by omega)]
    rw [totalScore, h12]
    cases windowReturn p n 126 <;> rfl
  · intro f recs name hname
    rcases List.mem_map.1 hname with ⟨x, hx, rfl⟩
    exact ⟨x.2, validRecs_mem (selectTopScored_subset hx)⟩
  · norm_num +decide [selectTop, selectTopScored, rankedRecs, validRecs, recsGap, selectCount,
      List.insertionSort, List.orderedInsert, scoreGE]

/-- Claim C9 (witness): a 100-observation flat series has an undefined
12-month return and composite score, and the selected asset `A` of the
data-gap scenario indeed has a defined score in the records. -/
theorem claim_C9_witness :
    windowReturn (fun _ => (1 : ℚ)) 100 252 = none ∧
    totalScore (fun _ => (1 : ℚ)) 100 = none ∧
    (recsGap.any (fun r => r.1 == "A" && r.2.isSome)) = true := by
  refine ⟨claim_C9.1 _ 100 252 (by norm_num), claim_C9.2.1 _ 100 (by norm_num), ?_⟩
  have hmem : "A" ∈ selectTop (2 / 3) recsGap := by
    rw [claim_C9.2.2.2]
    simp
  rcases claim_C9.2.2.1 (2 / 3) recsGap "A" hmem with ⟨q, hq⟩
  rw [List.any_eq_true]
  exact ⟨("A", some q), hq, by simp⟩

/-- Claim C10 (counterexample): the claim's "only when 'SPY' is absent from the
weights mapping is the benchmark series the raw benchmark return" is false:
with weights `{SPY: 1.0}` the overwritten column is `1.0 × SPY return`, so the
reported benchmark cumulative series coincides with the raw benchmark series
(growth of $1) at every observed date even though `SPY` is a weights key. -/
theorem claim_C10_counterexample :
    "SPY" ∈ cWeightsSPY1.map Prod.fst ∧
    cumBench cPrices2 cWeightsSPY1 0 = cumOfOpt (pctChange (cPrices2 SPY)) 0 ∧
    cumBench cPrices2 cWeightsSPY1 1 = cumOfOpt (pctChange (cPrices2 SPY)) 1 := by
  refine ⟨by simp [cWeightsSPY1], ?_, ?_⟩
  · rw [cumBench_zero]
    rfl
  · have ha : cumBench cPrices2 cWeightsSPY1 1 = some 2 := by
      norm_num +decide [cumBench, cumOfOpt, benchCol, getCol, buildCols, setCol, weightedSeries,
        pctChange, SPY, cWeightsSPY1, cPrices2, Finset.prod_range_succ]
    have hb : cumOfOpt (pctChange (cPrices2 SPY)) 1 = some 2 := by
      norm_num +decide [cumOfOpt, pctChange, SPY, cPrices2, Finset.prod_range_succ]
    rw [ha, hb]

/-- Claim C10 (amended): when `'SPY'` carries weight `w` in the weights
mapping, the loop of lines 76-77 overwrites the benchmark daily-return column
with `w × SPY return`, and line 79 drops that weighted `SPY` contribution from
the initially computed strategy return; when `'SPY'` is absent the benchmark
column is the raw `SPY` percent change.  The benchmark cumulative series
therefore differs from the raw growth-of-$1 series in general (e.g. at weight
0.5), but coincides with it at weight 1.0 — "only when absent" is too strong. -/
theorem claim_C10_amended (prices : String → ℕ → ℚ) (weights : List (String × ℚ))
    (hnd : (weights.map Prod.fst).Nodup) :
    (∀ kv ∈ weights, kv.1 = SPY → ∀ t,
        benchCol prices weights t = (pctChange (prices SPY) t).map (fun r => r * kv.2)) ∧
    (SPY ∉ weights.map Prod.fst → benchCol prices weights = pctChange (prices SPY)) ∧
    (∀ t, stratInit prices weights t =
        ((weights.filter (fun kv => !(kv.1 == SPY))).map
          (fun kv => ((weightedSeries prices kv) t).getD 0)).sum) ∧
    cumBench cPrices2 cWeightsSPYhalf 1 ≠ cumOfOpt (pctChange (cPrices2 SPY)) 1 := by
  refine ⟨?_, ?_, ?_, ?_⟩
  · intro kv hkv hspy t
    have hg := getCol_weights prices hnd hkv
    have hbc : benchCol prices weights = weightedSeries prices kv := by
      rw [benchCol, ← hspy, hg]
    rw [hbc]
    simp [weightedSeries, hspy]
  · intro hspy
    rw [benchCol_eq prices weights hnd, benchSeries]
    cases hf : weights.find? (fun kv2 => kv2.1 == SPY) with
    | none => rfl
    | some kv2 =>
      exfalso
      have h2 : kv2 ∈ weights := List.mem_of_find?_eq_some hf
      have hp := List.find?_some hf
      have h3 : kv2.1 = SPY := by simpa using hp
      exact hspy (h3 ▸ List.mem_map_of_mem Prod.fst h2)
  · intro t
    exact stratInit_eq prices weights hnd t
  · have ha : cumBench cPrices2 cWeightsSPYhalf 1 = some (3 / 2) := by
      norm_num +decide [cumBench, cumOfOpt, benchCol, getCol, buildCols, setCol, weightedSeries,
        pctChange, SPY, cWeightsSPYhalf, cPrices2, Finset.prod_range_succ]
    have hb : cumOfOpt (pctChange (cPrices2 SPY)) 1 = some 2 := by
      norm_num +decide [cumOfOpt, pctChange, SPY, cPrices2, Finset.prod_range_succ]
    rw [ha, hb]
    simp only [ne_eq, Option.some.injEq]
    norm_num

/-- Claim C10 (witness for the amended claim): the overwrite and the dropped
`SPY` strategy term evaluated on the two-day table with `SPY` weight 0.5. -/
theorem claim_C10_witness :
    benchCol cPrices2 cWeightsSPYhalf 1 =
      (pctChange (cPrices2 SPY) 1).map (fun r => r * (1 / 2 : ℚ)) ∧
    stratInit cPrices2 cWeightsSPYhalf 1 =
      ((cWeightsSPYhalf.filter (fun kv => !(kv.1 == SPY))).map
        (fun kv => ((weightedSeries cPrices2 kv) 1).getD 0)).sum := by
  have h := claim_C10_amended cPrices2 cWeightsSPYhalf (by decide)
  refine ⟨?_, h.2.2.1 1⟩
  have h1 := h.1 ("SPY", 1 / 2) (by simp [cWeightsSPYhalf]) rfl 1
  simpa using h1
